import Mathlib

/-!
Verification of the `typed-slab` crate: a typed-key wrapper (`TypedSlab<K, V>`
in `src/lib.rs`) around a slot store (`slab::Slab`).  The wrapper delegates all
slot management to the inner slab and only converts keys at the API edge
(`K::from(idx)` on the way out, `key.into()` on the way in).

The inner slot store is not part of this repository's sources, so it is
modelled from the specification's data model and operation descriptions
(spec sections 3 and 4): a sequence of slots, each `Occupied(value)` or
`Vacant(next_free)`, plus an occupied count `len` and a free-list head
`free_head`.  The wrapper functions themselves are embedded directly from
`src/lib.rs`.
-/

namespace TypedSlabModel

/-- Modelled from the spec: one storage cell, either holding a value
(`Occupied`) or a link in the singly-linked free list (`Vacant` with an
optional next vacant index). -/
inductive Slot (V : Type) where
  | occupied (value : V)
  | vacant (next : Option Nat)
deriving DecidableEq

/-- Modelled from the spec: the slot store (`slab::Slab`, not under `src/`):
an ordered sequence of slots, the count of occupied slots, and the index of
the first vacant slot (`none` when the next insert must append). -/
structure Slab (V : Type) where
  slots : List (Slot V)
  len : Nat
  free_head : Option Nat
deriving DecidableEq

/-- Does this slot hold a value? -/
def Slot.isOccupied {V : Type} : Slot V → Bool
  | .occupied _ => true
  | .vacant _ => false

namespace Slab

variable {V : Type}

/-- Modelled from the spec: `Slab::new()`, the zero-capacity store with an
empty free list and `len = 0`. -/
def new : Slab V := ⟨[], 0, none⟩

/-- Modelled from the spec: `Slab::default()`, the same zero-capacity store. -/
def defaultSlab : Slab V := ⟨[], 0, none⟩

/-- Modelled from the spec: `Slab::get(idx)` — the value at raw index `idx`
when that slot is occupied, absence otherwise (total over any index). -/
def get (s : Slab V) (idx : Nat) : Option V :=
  match s.slots[idx]? with
  | some (.occupied v) => some v
  | _ => none

/-- Modelled from the spec: `Slab::contains(idx)` — whether the slot at raw
index `idx` is currently occupied. -/
def contains (s : Slab V) (idx : Nat) : Bool :=
  (s.get idx).isSome

/-- Modelled from the spec: `Slab::insert(value)` — pop the free-list head
and overwrite that slot when the free list is non-empty, otherwise append a
new occupied slot at the end; increment `len`; return the raw index used. -/
def insert (s : Slab V) (v : V) : Nat × Slab V :=
  match s.free_head with
  | some i =>
      let nf : Option Nat :=
        match s.slots[i]? with
        | some (.vacant nf) => nf
        | _ => none
      (i, ⟨s.slots.set i (.occupied v), s.len + 1, nf⟩)
  | none => (s.slots.length, ⟨s.slots ++ [.occupied v], s.len + 1, none⟩)

/-- Modelled from the spec: `Slab::vacant_entry().key()` followed by
`entry.insert(value)` — the same slot selection as `insert`, additionally
handing back the just-stored value (standing for the mutable reference). -/
def insertEntry (s : Slab V) (v : V) : Nat × V × Slab V :=
  match s.free_head with
  | some i =>
      let nf : Option Nat :=
        match s.slots[i]? with
        | some (.vacant nf) => nf
        | _ => none
      (i, v, ⟨s.slots.set i (.occupied v), s.len + 1, nf⟩)
  | none => (s.slots.length, v, ⟨s.slots ++ [.occupied v], s.len + 1, none⟩)

/-- Modelled from the spec: the remove transition on an occupied slot —
replace it with `Vacant(next_free = old free_head)`, point `free_head` at the
freed index, decrement `len`.  Only ever applied behind the wrapper's
`contains` guard. -/
def removeAt (s : Slab V) (idx : Nat) : Slab V :=
  ⟨s.slots.set idx (.vacant s.free_head), s.len - 1, some idx⟩

/-- Occupied `(raw index, value)` pairs of a slot list in ascending raw-index
order, starting the numbering at `base`. -/
def entriesGo (base : Nat) : List (Slot V) → List (Nat × V)
  | [] => []
  | .occupied v :: rest => (base, v) :: entriesGo (base + 1) rest
  | .vacant _ :: rest => entriesGo (base + 1) rest

/-- Modelled from the spec: the sequence produced by `Slab::iter()` — one
pair per occupied slot, in ascending raw-index order. -/
def entries (s : Slab V) : List (Nat × V) :=
  entriesGo 0 s.slots

/-- Modelled from the spec: one step of the draining sequence — produce the
lowest-index occupied value and remove its slot; `none` when no occupied slot
remains. -/
def drainStep (s : Slab V) : Option (V × Slab V) :=
  match s.entries with
  | [] => none
  | (i, v) :: _ => some (v, s.removeAt i)

/-- Consume at most `k` elements of the draining sequence, returning the
values produced and the store left behind (a partially consumed, abandoned
drain). -/
def drainTake : Nat → Slab V → List V × Slab V
  | 0, s => ([], s)
  | k + 1, s =>
      match s.drainStep with
      | none => ([], s)
      | some (v, s₁) =>
          let r := drainTake k s₁
          (v :: r.1, r.2)

/-- Values produced by running the draining sequence to exhaustion, with
`fuel` bounding the number of steps. -/
def drainRun : Nat → Slab V → List V
  | 0, _ => []
  | fuel + 1, s =>
      match s.drainStep with
      | none => []
      | some (v, s₁) => v :: drainRun fuel s₁

/-- Modelled from the spec: fully consuming `Slab::drain()` — every occupied
value in ascending raw-index order, after which the store behaves as a
freshly emptied one (sequence truncated, free list reset). -/
def drainAll (s : Slab V) : List V × Slab V :=
  (drainRun s.slots.length s, Slab.new)

/-- Number of occupied slots in a slot list. -/
def occCountL (slots : List (Slot V)) : Nat :=
  slots.countP Slot.isOccupied

/-- Is the slot at index `i` vacant? -/
def isVacantAt (slots : List (Slot V)) (i : Nat) : Bool :=
  match slots[i]? with
  | some (.vacant _) => true
  | _ => false

/-- The raw indices of all vacant slots, in ascending order. -/
def vacantIndices (s : Slab V) : List Nat :=
  (List.range s.slots.length).filter (isVacantAt s.slots)

/-- Walk the free list from `head` for at most `fuel` steps, collecting the
visited indices; `none` when the walk leaves the vacant slots or runs out of
fuel (a corrupt free list). -/
def chainGo (slots : List (Slot V)) : Nat → Option Nat → Option (List Nat)
  | _, none => some []
  | 0, some _ => none
  | fuel + 1, some i =>
      match slots[i]? with
      | some (.vacant nf) => (chainGo slots fuel nf).map (i :: ·)
      | _ => none

/-- The free list reached from `free_head`, when it is well formed. -/
def freeChain (s : Slab V) : Option (List Nat) :=
  chainGo s.slots s.slots.length s.free_head

/-- The spec's store invariant: following `free_head` through the
`next_free` links visits every currently vacant slot exactly once and
terminates, occupied slots never appear in the chain, and `len` counts the
occupied slots exactly. -/
def WF (s : Slab V) : Prop :=
  ∃ l, s.freeChain = some l ∧ l.Perm s.vacantIndices ∧ s.len = occCountL s.slots

end Slab

/-- The key-conversion boundary of `TypedSlab<K, V>`: the caller-defined key
type must convert from and into a raw index (`K: From<usize> + Into<usize>`). -/
structure KeyConv (K : Type) where
  fromIdx : Nat → K
  toIdx : K → Nat

/-- The caller's contract from the spec: the integer representation of keys
round-trips exactly for every index the store can produce. -/
def KeyConv.RoundTrip {K : Type} (c : KeyConv K) : Prop :=
  ∀ i : Nat, c.toIdx (c.fromIdx i) = i

namespace TypedSlab

variable {K V : Type}

/-- Embedded from src: `TypedSlab::insert` — insert into the inner slab and
convert the returned raw index to a key. -/
def insert (c : KeyConv K) (s : Slab V) (v : V) : K × Slab V :=
  let r := s.insert v
  (c.fromIdx r.1, r.2)

/-- Embedded from src: `TypedSlab::insert_entry` — reserve the vacant entry,
read its key, store the value, and return the key with the stored value. -/
def insertEntry (c : KeyConv K) (s : Slab V) (v : V) : K × V × Slab V :=
  let r := s.insertEntry v
  (c.fromIdx r.1, r.2.1, r.2.2)

/-- Embedded from src: `TypedSlab::remove` — convert the key, and only when
the inner slab contains that index remove and return the value; otherwise
return `none` and leave the store as it was. -/
def remove (c : KeyConv K) (s : Slab V) (k : K) : Option V × Slab V :=
  let idx := c.toIdx k
  if s.contains idx then (s.get idx, s.removeAt idx) else (none, s)

/-- Embedded from src: `TypedSlab::get`. -/
def get (c : KeyConv K) (s : Slab V) (k : K) : Option V :=
  s.get (c.toIdx k)

/-- Embedded from src: `TypedSlab::get_mut` (the returned mutable reference
is modelled by the value it points at). -/
def getMut (c : KeyConv K) (s : Slab V) (k : K) : Option V :=
  s.get (c.toIdx k)

/-- Embedded from src: `TypedSlab::is_empty`, delegating to the inner slab's
emptiness (its occupied count being zero). -/
def isEmpty (s : Slab V) : Bool :=
  s.len == 0

/-- Embedded from src: `TypedSlab::len`, the inner slab's occupied count. -/
def len (s : Slab V) : Nat :=
  s.len

/-- Embedded from src: `TypedSlab::iter` — the inner slab's entry sequence
with raw indices converted to keys. -/
def iter (c : KeyConv K) (s : Slab V) : List (K × V) :=
  s.entries.map (fun p => (c.fromIdx p.1, p.2))

/-- The sequence produced by iterating `TypedSlab::iter()` from the back
(`DoubleEndedIterator::rev`). -/
def iterRev (c : KeyConv K) (s : Slab V) : List (K × V) :=
  (iter c s).reverse

end TypedSlab

/-- Insert a list of values one after the other, keeping the resulting
store. -/
def insertMany {V : Type} (vs : List V) (s : Slab V) : Slab V :=
  vs.foldl (fun t v => (t.insert v).2) s

/-- One operation of the claim's operation language: `insert`,
`insert_entry`, or `remove` with a key. -/
inductive Op (K V : Type) where
  | insertOp (v : V)
  | insertEntryOp (v : V)
  | removeOp (k : K)

/-- One step of running the operation language, threading the store together
with the count of inserts performed and of removes that returned a value. -/
def opStep {K V : Type} (c : KeyConv K) (acc : Slab V × Nat × Nat) :
    Op K V → Slab V × Nat × Nat
  | .insertOp v => ((TypedSlab.insert c acc.1 v).2, acc.2.1 + 1, acc.2.2)
  | .insertEntryOp v => ((TypedSlab.insertEntry c acc.1 v).2.2, acc.2.1 + 1, acc.2.2)
  | .removeOp k =>
      ((TypedSlab.remove c acc.1 k).2, acc.2.1,
        acc.2.2 + (if (TypedSlab.remove c acc.1 k).1.isSome then 1 else 0))

/-- Run a sequence of operations from a new store, returning the final store,
the number of inserts performed, and the number of removes that returned a
value. -/
def runOps {K V : Type} (c : KeyConv K) (ops : List (Op K V)) :
    Slab V × Nat × Nat :=
  ops.foldl (opStep c) (Slab.new, 0, 0)

/-! ### Basic facts about lookup and the free chain -/

namespace Slab

variable {V : Type}

theorem get_of_oob {s : Slab V} {i : Nat} (h : s.slots.length ≤ i) :
    s.get i = none := by
  unfold get
  rw [List.getElem?_eq_none h]

theorem get_of_vacant {s : Slab V} {i : Nat} (h : isVacantAt s.slots i = true) :
    s.get i = none := by
  unfold get
  unfold isVacantAt at h
  cases hs : s.slots[i]? with
  | none => rfl
  | some sl =>
      cases sl with
      | occupied v => rw [hs] at h; exact absurd h (by simp [Slot.isOccupied])
      | vacant nf => rfl

theorem lt_length_of_getElem?_eq_some {l : List (Slot V)} {i : Nat} {a : Slot V}
    (h : l[i]? = some a) : i < l.length := by
  by_contra hc
  rw [List.getElem?_eq_none (Nat.le_of_not_lt hc)] at h
  exact Option.noConfusion h

theorem get_eq_some_iff {s : Slab V} {i : Nat} {v : V} :
    s.get i = some v ↔ s.slots[i]? = some (.occupied v) := by
  unfold get
  cases hs : s.slots[i]? with
  | none => simp
  | some sl => cases sl <;> simp

theorem contains_eq_true_iff {s : Slab V} {i : Nat} :
    s.contains i = true ↔ ∃ v, s.slots[i]? = some (.occupied v) := by
  unfold contains
  rw [Option.isSome_iff_exists]
  constructor
  · rintro ⟨v, hv⟩; exact ⟨v, get_eq_some_iff.mp hv⟩
  · rintro ⟨v, hv⟩; exact ⟨v, get_eq_some_iff.mpr hv⟩

theorem WF.free_head_vacant {s : Slab V} {i : Nat} (hWF : s.WF)
    (hfh : s.free_head = some i) : ∃ nf, s.slots[i]? = some (.vacant nf) := by
  obtain ⟨l, hl, -, -⟩ := hWF
  unfold freeChain at hl
  rw [hfh] at hl
  cases hn : s.slots.length with
  | zero => rw [hn] at hl; exact Option.noConfusion hl
  | succ m =>
      rw [hn] at hl
      unfold chainGo at hl
      cases hs : s.slots[i]? with
      | none => rw [hs] at hl; exact Option.noConfusion hl
      | some sl =>
          cases sl with
          | occupied v => rw [hs] at hl; exact Option.noConfusion hl
          | vacant nf => exact ⟨nf, rfl⟩

theorem get_insert {s : Slab V} (hWF : s.WF) (v : V) :
    (s.insert v).2.get (s.insert v).1 = some v := by
  cases hfh : s.free_head with
  | none =>
      simp only [insert, hfh]
      rw [get_eq_some_iff]
      exact List.getElem?_concat_length s.slots (.occupied v)
  | some i =>
      obtain ⟨nf, hs⟩ := hWF.free_head_vacant hfh
      have hi : i < s.slots.length := lt_length_of_getElem?_eq_some hs
      simp only [insert, hfh]
      rw [get_eq_some_iff]
      exact List.getElem?_set_eq_of_lt (.occupied v) hi

theorem isVacantAt_iff {slots : List (Slot V)} {j : Nat} :
    isVacantAt slots j = true ↔ ∃ nf, slots[j]? = some (.vacant nf) := by
  unfold isVacantAt
  cases hs : slots[j]? with
  | none => simp
  | some sl => cases sl <;> simp

theorem mem_vacantIndices {s : Slab V} {j : Nat} :
    j ∈ s.vacantIndices ↔ ∃ nf, s.slots[j]? = some (.vacant nf) := by
  unfold vacantIndices
  rw [List.mem_filter, List.mem_range, isVacantAt_iff]
  constructor
  · exact fun h => h.2
  · intro h
    exact ⟨lt_length_of_getElem?_eq_some h.choose_spec, h⟩

theorem vacantIndices_nodup (s : Slab V) : s.vacantIndices.Nodup :=
  List.Nodup.filter _ (List.nodup_range _)

theorem chainGo_none (slots : List (Slot V)) (fuel : Nat) :
    chainGo slots fuel none = some [] := by
  cases fuel <;> rfl

theorem chainGo_succ_some (slots : List (Slot V)) (fuel : Nat) (i : Nat) :
    chainGo slots (fuel + 1) (some i) =
      match slots[i]? with
      | some (.vacant nf) => (chainGo slots fuel nf).map (i :: ·)
      | _ => none := rfl

theorem chainGo_succ_vacant {slots : List (Slot V)} {i : Nat} {nf : Option Nat}
    (hs : slots[i]? = some (.vacant nf)) (fuel : Nat) :
    chainGo slots (fuel + 1) (some i) = (chainGo slots fuel nf).map (i :: ·) := by
  rw [chainGo_succ_some, hs]

theorem chainGo_succ_occupied {slots : List (Slot V)} {i : Nat} {v : V}
    (hs : slots[i]? = some (.occupied v)) (fuel : Nat) :
    chainGo slots (fuel + 1) (some i) = none := by
  rw [chainGo_succ_some, hs]

theorem chainGo_succ_oob {slots : List (Slot V)} {i : Nat}
    (hs : slots[i]? = none) (fuel : Nat) :
    chainGo slots (fuel + 1) (some i) = none := by
  rw [chainGo_succ_some, hs]

theorem chainGo_mono {slots : List (Slot V)} {fuel fuel' : Nat}
    {h : Option Nat} {l : List Nat} (hgo : chainGo slots fuel h = some l)
    (hle : fuel ≤ fuel') : chainGo slots fuel' h = some l := by
  induction fuel generalizing h l fuel' with
  | zero =>
      cases h with
      | none => rw [chainGo_none] at hgo; rw [chainGo_none]; exact hgo
      | some i => exact Option.noConfusion hgo
  | succ fuel ih =>
      cases h with
      | none => rw [chainGo_none] at hgo; rw [chainGo_none]; exact hgo
      | some i =>
          cases fuel' with
          | zero => exact absurd hle (by omega)
          | succ fuel'' =>
              cases hs : slots[i]? with
              | none => rw [chainGo_succ_oob hs] at hgo; exact Option.noConfusion hgo
              | some sl =>
                  cases sl with
                  | occupied v =>
                      rw [chainGo_succ_occupied hs] at hgo
                      exact Option.noConfusion hgo
                  | vacant nf =>
                      rw [chainGo_succ_vacant hs] at hgo
                      obtain ⟨l₂, hl₂, hcons⟩ := Option.map_eq_some'.mp hgo
                      rw [chainGo_succ_vacant hs,
                        ih hl₂ (Nat.le_of_succ_le_succ hle), Option.map_some']
                      rw [hcons]

theorem chainGo_min {slots : List (Slot V)} {fuel : Nat} {h : Option Nat}
    {l : List Nat} (hgo : chainGo slots fuel h = some l) :
    chainGo slots l.length h = some l := by
  induction fuel generalizing h l with
  | zero =>
      cases h with
      | none =>
          rw [chainGo_none] at hgo
          cases hgo
          exact chainGo_none slots 0
      | some i => exact Option.noConfusion hgo
  | succ fuel ih =>
      cases h with
      | none =>
          rw [chainGo_none] at hgo
          cases hgo
          exact chainGo_none slots 0
      | some i =>
          cases hs : slots[i]? with
          | none => rw [chainGo_succ_oob hs] at hgo; exact Option.noConfusion hgo
          | some sl =>
              cases sl with
              | occupied v =>
                  rw [chainGo_succ_occupied hs] at hgo
                  exact Option.noConfusion hgo
              | vacant nf =>
                  rw [chainGo_succ_vacant hs] at hgo
                  obtain ⟨l₂, hl₂, hcons⟩ := Option.map_eq_some'.mp hgo
                  subst hcons
                  rw [List.length_cons, chainGo_succ_vacant hs, ih hl₂,
                    Option.map_some']

theorem chainGo_set_not_mem {slots : List (Slot V)} {fuel : Nat}
    {h : Option Nat} {l : List Nat} (hgo : chainGo slots fuel h = some l)
    {i : Nat} (hi : i ∉ l) (x : Slot V) :
    chainGo (slots.set i x) fuel h = some l := by
  induction fuel generalizing h l with
  | zero =>
      cases h with
      | none => rw [chainGo_none] at hgo; rw [chainGo_none]; exact hgo
      | some j => exact Option.noConfusion hgo
  | succ fuel ih =>
      cases h with
      | none => rw [chainGo_none] at hgo; rw [chainGo_none]; exact hgo
      | some j =>
          cases hs : slots[j]? with
          | none => rw [chainGo_succ_oob hs] at hgo; exact Option.noConfusion hgo
          | some sl =>
              cases sl with
              | occupied v =>
                  rw [chainGo_succ_occupied hs] at hgo
                  exact Option.noConfusion hgo
              | vacant nf =>
                  rw [chainGo_succ_vacant hs] at hgo
                  obtain ⟨l₂, hl₂, hcons⟩ := Option.map_eq_some'.mp hgo
                  subst hcons
                  have hij : i ≠ j := fun he => hi (he ▸ List.mem_cons_self j l₂)
                  have hs' : (slots.set i x)[j]? = some (Slot.vacant nf) := by
                    rw [List.getElem?_set_ne hij, hs]
                  rw [chainGo_succ_vacant hs',
                    ih hl₂ (fun hm => hi (List.mem_cons_of_mem j hm)),
                    Option.map_some']

theorem chainGo_mem_vacant {slots : List (Slot V)} {fuel : Nat}
    {h : Option Nat} {l : List Nat} (hgo : chainGo slots fuel h = some l)
    {j : Nat} (hj : j ∈ l) : ∃ nf, slots[j]? = some (.vacant nf) := by
  induction fuel generalizing h l with
  | zero =>
      cases h with
      | none => rw [chainGo_none] at hgo; cases hgo; exact absurd hj (by simp)
      | some i => exact Option.noConfusion hgo
  | succ fuel ih =>
      cases h with
      | none => rw [chainGo_none] at hgo; cases hgo; exact absurd hj (by simp)
      | some i =>
          cases hs : slots[i]? with
          | none => rw [chainGo_succ_oob hs] at hgo; exact Option.noConfusion hgo
          | some sl =>
              cases sl with
              | occupied v =>
                  rw [chainGo_succ_occupied hs] at hgo
                  exact Option.noConfusion hgo
              | vacant nf =>
                  rw [chainGo_succ_vacant hs] at hgo
                  obtain ⟨l₂, hl₂, hcons⟩ := Option.map_eq_some'.mp hgo
                  subst hcons
                  rcases List.mem_cons.mp hj with he | hm
                  · exact he ▸ ⟨nf, hs⟩
                  · exact ih hl₂ hm

theorem length_filter_lt {α : Type} {l : List α} {p : α → Bool} {a : α}
    (ha : a ∈ l) (hpa : p a = false) : (l.filter p).length < l.length := by
  induction l with
  | nil => exact absurd ha (by simp)
  | cons b rest ih =>
      rcases List.mem_cons.mp ha with he | hm
      · subst he
        rw [List.filter_cons, hpa]
        simp only [Bool.false_eq_true, if_false, List.length_cons]
        exact Nat.lt_succ_of_le (List.length_filter_le p rest)
      · rw [List.filter_cons]
        cases hb : p b with
        | true =>
            simp only [if_true, List.length_cons]
            exact Nat.succ_lt_succ (ih hm)
        | false =>
            simp only [Bool.false_eq_true, if_false, List.length_cons]
            exact Nat.lt_succ_of_lt (ih hm)

theorem occCountL_append_occ (slots : List (Slot V)) (v : V) :
    occCountL (slots ++ [.occupied v]) = occCountL slots + 1 := by
  unfold occCountL
  rw [List.countP_append]
  rfl

theorem occCountL_set_occ {slots : List (Slot V)} {i : Nat} {nf : Option Nat}
    (hs : slots[i]? = some (.vacant nf)) (v : V) :
    occCountL (slots.set i (.occupied v)) = occCountL slots + 1 := by
  induction slots generalizing i with
  | nil => exact Option.noConfusion hs
  | cons a rest ih =>
      cases i with
      | zero =>
          simp only [List.getElem?_cons_zero, Option.some.injEq] at hs
          subst hs
          simp [occCountL, List.countP_cons, Slot.isOccupied]
      | succ j =>
          simp only [List.getElem?_cons_succ] at hs
          simp only [List.set_cons_succ]
          simp only [occCountL, List.countP_cons] at *
          rw [ih hs]
          omega

theorem occCountL_set_vacant {slots : List (Slot V)} {i : Nat} {v : V}
    (hs : slots[i]? = some (.occupied v)) (nf : Option Nat) :
    occCountL (slots.set i (.vacant nf)) + 1 = occCountL slots := by
  induction slots generalizing i with
  | nil => exact Option.noConfusion hs
  | cons a rest ih =>
      cases i with
      | zero =>
          simp only [List.getElem?_cons_zero, Option.some.injEq] at hs
          subst hs
          simp [occCountL, List.countP_cons, Slot.isOccupied]
      | succ j =>
          simp only [List.getElem?_cons_succ] at hs
          simp only [List.set_cons_succ]
          simp only [occCountL, List.countP_cons] at *
          rw [← ih hs]
          omega

theorem occCountL_pos {slots : List (Slot V)} {i : Nat} {v : V}
    (hs : slots[i]? = some (.occupied v)) : 0 < occCountL slots := by
  unfold occCountL
  rw [List.countP_pos_iff]
  exact ⟨.occupied v, List.getElem?_mem hs, rfl⟩

theorem isVacantAt_occupied {slots : List (Slot V)} {i : Nat} {v : V}
    (hs : slots[i]? = some (.occupied v)) : isVacantAt slots i = false := by
  unfold isVacantAt
  rw [hs]

theorem insert_of_free_head {s : Slab V} {i : Nat} {nf : Option Nat}
    (hfh : s.free_head = some i) (hs : s.slots[i]? = some (.vacant nf)) (v : V) :
    s.insert v = (i, ⟨s.slots.set i (.occupied v), s.len + 1, nf⟩) := by
  unfold Slab.insert
  rw [hfh]
  simp only [hs]

theorem insert_of_no_free {s : Slab V} (hfh : s.free_head = none) (v : V) :
    s.insert v = (s.slots.length, ⟨s.slots ++ [.occupied v], s.len + 1, none⟩) := by
  unfold Slab.insert
  rw [hfh]

theorem WF.insert {s : Slab V} (hWF : s.WF) (v : V) : (s.insert v).2.WF := by
  obtain ⟨l, hl, hperm, hlen⟩ := id hWF
  unfold freeChain at hl
  cases hfh : s.free_head with
  | none =>
      rw [hfh, chainGo_none] at hl
      cases hl
      have hvac : s.vacantIndices = [] := (hperm.symm).eq_nil
      rw [insert_of_no_free hfh]
      refine ⟨[], chainGo_none _ _, ?_, ?_⟩
      · suffices h : vacantIndices ⟨s.slots ++ [.occupied v], s.len + 1, none⟩ = [] by
          rw [h]
        unfold vacantIndices
        rw [List.filter_eq_nil_iff]
        intro j hj hvacj
        obtain ⟨nf, hjs⟩ := isVacantAt_iff.mp hvacj
        rw [List.mem_range] at hj
        simp only [List.length_append, List.length_cons, List.length_nil] at hj
        rcases Nat.lt_or_ge j s.slots.length with hlt | hge
        · rw [List.getElem?_append_left hlt] at hjs
          have : j ∈ s.vacantIndices := mem_vacantIndices.mpr ⟨nf, hjs⟩
          rw [hvac] at this
          exact absurd this (by simp)
        · have hje : j = s.slots.length := by omega
          subst hje
          rw [List.getElem?_concat_length] at hjs
          exact Slot.noConfusion (Option.some.inj hjs)
      · show s.len + 1 = occCountL (s.slots ++ [.occupied v])
        rw [occCountL_append_occ, hlen]
  | some i =>
      obtain ⟨nf, hs⟩ := hWF.free_head_vacant hfh
      have hi : i < s.slots.length := lt_length_of_getElem?_eq_some hs
      obtain ⟨m, hm⟩ : ∃ m, s.slots.length = m + 1 := ⟨s.slots.length - 1, by omega⟩
      rw [hfh, hm, chainGo_succ_vacant hs] at hl
      obtain ⟨l₂, hl₂, hcons⟩ := Option.map_eq_some'.mp hl
      subst hcons
      have hnodupl : (i :: l₂).Nodup := (hperm.nodup_iff).mpr (vacantIndices_nodup s)
      have hinotmem : i ∉ l₂ := (List.nodup_cons.mp hnodupl).1
      rw [insert_of_free_head hfh hs]
      refine ⟨l₂, ?_, ?_, ?_⟩
      · show chainGo (s.slots.set i (.occupied v))
          (s.slots.set i (.occupied v)).length nf = some l₂
        rw [List.length_set, hm]
        exact chainGo_set_not_mem (chainGo_mono hl₂ (by omega)) hinotmem _
      · refine (List.perm_ext_iff_of_nodup (List.nodup_cons.mp hnodupl).2
          (vacantIndices_nodup _)).mpr ?_
        intro j
        rw [mem_vacantIndices]
        constructor
        · intro hm2
          have hji : j ≠ i := fun he => hinotmem (he ▸ hm2)
          obtain ⟨nf', hj⟩ :=
            mem_vacantIndices.mp (hperm.mem_iff.mp (List.mem_cons_of_mem i hm2))
          exact ⟨nf', by rw [List.getElem?_set_ne (Ne.symm hji)]; exact hj⟩
        · rintro ⟨nf', hj⟩
          by_cases hji : j = i
          · subst hji
            rw [List.getElem?_set_eq_of_lt _ hi] at hj
            exact Slot.noConfusion (Option.some.inj hj)
          · rw [List.getElem?_set_ne (fun he => hji he.symm)] at hj
            have : j ∈ i :: l₂ := hperm.mem_iff.mpr (mem_vacantIndices.mpr ⟨nf', hj⟩)
            rcases List.mem_cons.mp this with he | hm2
            · exact absurd he hji
            · exact hm2
      · show s.len + 1 = occCountL (s.slots.set i (.occupied v))
        rw [occCountL_set_occ hs, hlen]

theorem WF.removeAt {s : Slab V} (hWF : s.WF) {i : Nat} {v : V}
    (hs : s.slots[i]? = some (.occupied v)) : (s.removeAt i).WF := by
  obtain ⟨l, hl, hperm, hlen⟩ := id hWF
  unfold freeChain at hl
  have hi : i < s.slots.length := lt_length_of_getElem?_eq_some hs
  obtain ⟨m, hm⟩ : ∃ m, s.slots.length = m + 1 := ⟨s.slots.length - 1, by omega⟩
  have hnodupl : l.Nodup := (hperm.nodup_iff).mpr (vacantIndices_nodup s)
  have hinotmem : i ∉ l := by
    intro hm2
    obtain ⟨nf, hj⟩ := mem_vacantIndices.mp (hperm.mem_iff.mp hm2)
    rw [hs] at hj
    exact Slot.noConfusion (Option.some.inj hj)
  have hset_i : (s.slots.set i (.vacant s.free_head))[i]? =
      some (.vacant s.free_head) := List.getElem?_set_eq_of_lt _ hi
  show WF ⟨s.slots.set i (.vacant s.free_head), s.len - 1, some i⟩
  refine ⟨i :: l, ?_, ?_, ?_⟩
  · show chainGo (s.slots.set i (.vacant s.free_head))
      (s.slots.set i (.vacant s.free_head)).length (some i) = some (i :: l)
    rw [List.length_set, hm, chainGo_succ_vacant hset_i]
    have hllen : l.length ≤ m := by
      have hle := hperm.length_eq
      have hflt : s.vacantIndices.length < s.slots.length := by
        unfold vacantIndices
        have := length_filter_lt (l := List.range s.slots.length)
          (List.mem_range.mpr hi) (isVacantAt_occupied hs)
        rwa [List.length_range] at this
      omega
    rw [chainGo_set_not_mem (chainGo_mono (chainGo_min hl) hllen) hinotmem,
      Option.map_some']
  · refine (List.perm_ext_iff_of_nodup (List.nodup_cons.mpr ⟨hinotmem, hnodupl⟩)
      (vacantIndices_nodup _)).mpr ?_
    intro j
    rw [List.mem_cons, mem_vacantIndices]
    constructor
    · rintro (he | hm2)
      · subst he
        exact ⟨s.free_head, hset_i⟩
      · have hji : j ≠ i := fun he => hinotmem (he ▸ hm2)
        obtain ⟨nf, hj⟩ := mem_vacantIndices.mp (hperm.mem_iff.mp hm2)
        exact ⟨nf, by rw [List.getElem?_set_ne (Ne.symm hji)]; exact hj⟩
    · rintro ⟨nf, hj⟩
      by_cases hji : j = i
      · exact Or.inl hji
      · right
        rw [List.getElem?_set_ne (fun he => hji he.symm)] at hj
        exact hperm.mem_iff.mpr (mem_vacantIndices.mpr ⟨nf, hj⟩)
  · show s.len - 1 = occCountL (s.slots.set i (.vacant s.free_head))
    have := occCountL_set_vacant hs s.free_head
    omega

theorem insert_len (s : Slab V) (v : V) : (s.insert v).2.len = s.len + 1 := by
  unfold Slab.insert
  cases s.free_head <;> rfl

theorem WF_new : (Slab.new : Slab V).WF :=
  ⟨[], rfl, List.Perm.refl _, rfl⟩

theorem insertEntry_eq_insert (s : Slab V) (v : V) :
    s.insertEntry v = ((s.insert v).1, v, (s.insert v).2) := by
  unfold Slab.insertEntry Slab.insert
  cases s.free_head <;> rfl

end Slab

theorem insertMany_no_free {V : Type} (vs : List V) :
    ∀ s : Slab V, s.free_head = none →
      insertMany vs s = ⟨s.slots ++ vs.map Slot.occupied, s.len + vs.length, none⟩ := by
  induction vs with
  | nil =>
      intro s h
      unfold insertMany
      rw [List.foldl_nil]
      cases s with
      | mk slots len fh =>
          simp only at h
          rw [h]
          simp
  | cons v vs ih =>
      intro s h
      unfold insertMany
      rw [List.foldl_cons]
      have hins : (s.insert v).2 = ⟨s.slots ++ [.occupied v], s.len + 1, none⟩ := by
        rw [Slab.insert_of_no_free h]
      rw [hins]
      have := ih ⟨s.slots ++ [.occupied v], s.len + 1, none⟩ rfl
      unfold insertMany at this
      rw [this]
      have harr : (s.slots ++ [Slot.occupied v]) ++ vs.map Slot.occupied =
          s.slots ++ (Slot.occupied v :: vs.map Slot.occupied) := by
        rw [List.append_assoc]
        rfl
      have hlen2 : s.len + 1 + vs.length = s.len + (vs.length + 1) := by omega
      simp only [List.map_cons, List.length_cons]
      rw [harr, hlen2]

theorem mem_entriesGo {V : Type} {slots : List (Slot V)} {base i : Nat} {v : V} :
    (i, v) ∈ Slab.entriesGo base slots ↔
      ∃ off, i = base + off ∧ slots[off]? = some (.occupied v) := by
  induction slots generalizing base with
  | nil => simp [Slab.entriesGo]
  | cons a rest ih =>
      cases a with
      | occupied w =>
          simp only [Slab.entriesGo, List.mem_cons, Prod.mk.injEq]
          constructor
          · rintro (⟨hi, hv⟩ | hm)
            · subst hi
              subst hv
              exact ⟨0, by omega, by rw [List.getElem?_cons_zero]⟩
            · obtain ⟨off, hoff, hs⟩ := ih.mp hm
              exact ⟨off + 1, by omega, by rw [List.getElem?_cons_succ]; exact hs⟩
          · rintro ⟨off, hoff, hs⟩
            cases off with
            | zero =>
                rw [List.getElem?_cons_zero] at hs
                left
                exact ⟨by omega, (Slot.occupied.inj (Option.some.inj hs)).symm⟩
            | succ off' =>
                rw [List.getElem?_cons_succ] at hs
                exact Or.inr (ih.mpr ⟨off', by omega, hs⟩)
      | vacant nf =>
          simp only [Slab.entriesGo]
          rw [ih]
          constructor
          · rintro ⟨off, hoff, hs⟩
            exact ⟨off + 1, by omega, by rw [List.getElem?_cons_succ]; exact hs⟩
          · rintro ⟨off, hoff, hs⟩
            cases off with
            | zero =>
                rw [List.getElem?_cons_zero] at hs
                exact Slot.noConfusion (Option.some.inj hs)
            | succ off' =>
                rw [List.getElem?_cons_succ] at hs
                exact ⟨off', by omega, hs⟩

theorem entriesGo_lower {V : Type} {slots : List (Slot V)} {base : Nat} :
    ∀ p ∈ Slab.entriesGo base slots, base ≤ p.1 := by
  induction slots generalizing base with
  | nil => simp [Slab.entriesGo]
  | cons a rest ih =>
      cases a with
      | occupied w =>
          intro p hp
          rcases List.mem_cons.mp hp with he | hm
          · rw [he]
          · exact Nat.le_of_succ_le (ih p hm)
      | vacant nf => exact fun p hp => Nat.le_of_succ_le (ih p hp)

theorem entriesGo_pairwise {V : Type} {slots : List (Slot V)} {base : Nat} :
    List.Pairwise (fun a b => a.1 < b.1) (Slab.entriesGo base slots) := by
  induction slots generalizing base with
  | nil => simp [Slab.entriesGo]
  | cons a rest ih =>
      cases a with
      | occupied w =>
          rw [Slab.entriesGo, List.pairwise_cons]
          exact ⟨fun p hp => Nat.lt_of_lt_of_le (Nat.lt_succ_self base)
            (entriesGo_lower p hp), ih⟩
      | vacant nf => exact ih

theorem entriesGo_length_le {V : Type} {slots : List (Slot V)} {base : Nat} :
    (Slab.entriesGo base slots).length ≤ slots.length := by
  induction slots generalizing base with
  | nil => exact Nat.le_refl 0
  | cons a rest ih =>
      cases a with
      | occupied w =>
          rw [Slab.entriesGo, List.length_cons, List.length_cons]
          exact Nat.succ_le_succ ih
      | vacant nf =>
          rw [Slab.entriesGo, List.length_cons]
          exact Nat.le_succ_of_le ih

theorem entriesGo_set_vacant {V : Type} {slots : List (Slot V)} {off : Nat}
    {v : V} (hs : slots[off]? = some (.occupied v)) (h : Option Nat) :
    ∀ base, Slab.entriesGo base (slots.set off (.vacant h)) =
      (Slab.entriesGo base slots).filter (fun p => p.1 != base + off) := by
  induction slots generalizing off with
  | nil => exact Option.noConfusion hs
  | cons a rest ih =>
      intro base
      cases off with
      | zero =>
          rw [List.getElem?_cons_zero] at hs
          have ha : a = .occupied v := Option.some.inj hs
          subst ha
          rw [List.set_cons_zero]
          show Slab.entriesGo (base + 1) rest =
            ((base, v) :: Slab.entriesGo (base + 1) rest).filter
              (fun p => p.1 != base + 0)
          rw [List.filter_cons]
          have hhead : (((base, v) : Nat × V).1 != base + 0) = false := by simp
          rw [hhead]
          simp only [Bool.false_eq_true, if_false]
          refine (List.filter_eq_self.mpr ?_).symm
          intro p hp
          have := entriesGo_lower p hp
          simp only [bne_iff_ne, ne_eq]
          omega
      | succ off' =>
          rw [List.getElem?_cons_succ] at hs
          have harith : ∀ b : Nat, b + (off' + 1) = (b + 1) + off' :=
            fun b => by omega
          cases a with
          | occupied w =>
              rw [List.set_cons_succ]
              show (base, w) :: Slab.entriesGo (base + 1) (rest.set off' (.vacant h)) =
                ((base, w) :: Slab.entriesGo (base + 1) rest).filter
                  (fun p => p.1 != base + (off' + 1))
              rw [List.filter_cons]
              have hhead : (((base, w) : Nat × V).1 != base + (off' + 1)) = true := by
                simp only [bne_iff_ne, ne_eq]
                omega
              rw [hhead]
              simp only [if_true]
              rw [ih hs (base + 1), harith base]
          | vacant nf =>
              rw [List.set_cons_succ]
              show Slab.entriesGo (base + 1) (rest.set off' (.vacant h)) =
                (Slab.entriesGo (base + 1) rest).filter
                  (fun p => p.1 != base + (off' + 1))
              rw [ih hs (base + 1), harith base]

theorem entries_head_occupied {V : Type} {s : Slab V} {i : Nat} {v : V}
    {rest : List (Nat × V)} (he : s.entries = (i, v) :: rest) :
    s.slots[i]? = some (.occupied v) := by
  have hm : (i, v) ∈ s.entries := by rw [he]; exact List.mem_cons_self _ _
  obtain ⟨off, hoff, hs⟩ := mem_entriesGo.mp hm
  have : i = off := by omega
  rw [this]
  exact hs

theorem entries_removeAt_head {V : Type} {s : Slab V} {i : Nat} {v : V}
    {rest : List (Nat × V)} (he : s.entries = (i, v) :: rest) :
    (s.removeAt i).entries = rest := by
  have hs := entries_head_occupied he
  show Slab.entriesGo 0 (s.slots.set i (.vacant s.free_head)) = rest
  rw [entriesGo_set_vacant hs s.free_head 0]
  have he' : Slab.entriesGo 0 s.slots = (i, v) :: rest := he
  rw [he', List.filter_cons]
  have hhead : (((i, v) : Nat × V).1 != 0 + i) = false := by simp
  rw [hhead]
  simp only [Bool.false_eq_true, if_false]
  have hpw : List.Pairwise (fun a b => (a : Nat × V).1 < b.1) ((i, v) :: rest) := by
    rw [← he']
    exact entriesGo_pairwise
  refine List.filter_eq_self.mpr ?_
  intro p hp
  have := (List.pairwise_cons.mp hpw).1 p hp
  simp only [bne_iff_ne, ne_eq]
  omega

theorem drainStep_of_entries {V : Type} {s : Slab V} {i : Nat} {v : V}
    {rest : List (Nat × V)} (he : s.entries = (i, v) :: rest) :
    s.drainStep = some (v, s.removeAt i) := by
  unfold Slab.drainStep
  rw [he]

theorem drainStep_of_entries_nil {V : Type} {s : Slab V}
    (he : s.entries = []) : s.drainStep = none := by
  unfold Slab.drainStep
  rw [he]

theorem drainTake_spec {V : Type} :
    ∀ (k : Nat) (s : Slab V), s.WF → k ≤ s.entries.length →
      (Slab.drainTake k s).1 = (s.entries.map Prod.snd).take k ∧
        (Slab.drainTake k s).2.entries = s.entries.drop k ∧
        (Slab.drainTake k s).2.WF := by
  intro k
  induction k with
  | zero => exact fun s hWF _ => ⟨rfl, rfl, hWF⟩
  | succ k ih =>
      intro s hWF hk
      cases he : s.entries with
      | nil => rw [he] at hk; exact absurd hk (by simp)
      | cons p rest =>
          obtain ⟨i, v⟩ := p
          have hstep := drainStep_of_entries he
          have hs := entries_head_occupied he
          have hWF' := hWF.removeAt hs
          have hent' := entries_removeAt_head he
          have hk' : k ≤ (s.removeAt i).entries.length := by
            rw [hent']
            rw [he, List.length_cons] at hk
            omega
          obtain ⟨h1, h2, h3⟩ := ih (s.removeAt i) hWF' hk'
          simp only [Slab.drainTake, hstep]
          refine ⟨?_, ?_, h3⟩
          · rw [List.map_cons, List.take_succ_cons, h1, hent']
          · rw [List.drop_succ_cons, h2, hent']

theorem drainRun_spec {V : Type} :
    ∀ (fuel : Nat) (s : Slab V), s.WF → s.entries.length ≤ fuel →
      Slab.drainRun fuel s = s.entries.map Prod.snd := by
  intro fuel
  induction fuel with
  | zero =>
      intro s _ hk
      have : s.entries = [] := List.length_eq_zero.mp (by omega)
      rw [Slab.drainRun, this]
      rfl
  | succ fuel ih =>
      intro s hWF hk
      cases he : s.entries with
      | nil =>
          rw [Slab.drainRun, drainStep_of_entries_nil he]
          rfl
      | cons p rest =>
          obtain ⟨i, v⟩ := p
          have hstep := drainStep_of_entries he
          have hs := entries_head_occupied he
          have hWF' := hWF.removeAt hs
          have hent' := entries_removeAt_head he
          rw [Slab.drainRun, hstep]
          simp only
          rw [List.map_cons]
          have hk' : (s.removeAt i).entries.length ≤ fuel := by
            rw [hent']
            rw [he, List.length_cons] at hk
            omega
          rw [ih (s.removeAt i) hWF' hk', hent']

theorem remove_eq_of_contains {K V : Type} {c : KeyConv K} {s : Slab V} {k : K}
    (hc : s.contains (c.toIdx k) = true) :
    TypedSlab.remove c s k = (s.get (c.toIdx k), s.removeAt (c.toIdx k)) := by
  unfold TypedSlab.remove
  exact if_pos hc

theorem remove_eq_of_not_contains {K V : Type} {c : KeyConv K} {s : Slab V}
    {k : K} (hc : s.contains (c.toIdx k) = false) :
    TypedSlab.remove c s k = (none, s) := by
  unfold TypedSlab.remove
  exact if_neg (by rw [hc]; exact fun h => Bool.noConfusion h)

theorem opStep_invariant {K V : Type} (c : KeyConv K) (acc : Slab V × Nat × Nat)
    (op : Op K V) (h1 : acc.1.WF) (h2 : acc.1.len + acc.2.2 = acc.2.1) :
    (opStep c acc op).1.WF ∧
      (opStep c acc op).1.len + (opStep c acc op).2.2 = (opStep c acc op).2.1 := by
  cases op with
  | insertOp v =>
      simp only [opStep, TypedSlab.insert]
      exact ⟨h1.insert v, by rw [Slab.insert_len]; omega⟩
  | insertEntryOp v =>
      simp only [opStep, TypedSlab.insertEntry, Slab.insertEntry_eq_insert]
      exact ⟨h1.insert v, by rw [Slab.insert_len]; omega⟩
  | removeOp k =>
      simp only [opStep]
      by_cases hc : acc.1.contains (c.toIdx k) = true
      · rw [remove_eq_of_contains hc]
        obtain ⟨v, hv⟩ := Slab.contains_eq_true_iff.mp hc
        have hpos : 0 < acc.1.len := by
          obtain ⟨l, -, -, hlen⟩ := id h1
          have := Slab.occCountL_pos hv
          omega
        have hget : acc.1.get (c.toIdx k) = some v := Slab.get_eq_some_iff.mpr hv
        refine ⟨h1.removeAt hv, ?_⟩
        rw [hget]
        simp only [Option.isSome_some, if_true]
        show acc.1.len - 1 + (acc.2.2 + 1) = acc.2.1
        omega
      · rw [remove_eq_of_not_contains (by simpa using hc)]
        simp only [Option.isSome_none, Bool.false_eq_true, if_false]
        exact ⟨h1, by omega⟩

theorem foldl_opStep_invariant {K V : Type} (c : KeyConv K)
    (ops : List (Op K V)) :
    ∀ acc : Slab V × Nat × Nat, acc.1.WF → acc.1.len + acc.2.2 = acc.2.1 →
      ((ops.foldl (opStep c) acc).1.WF ∧
        (ops.foldl (opStep c) acc).1.len + (ops.foldl (opStep c) acc).2.2 =
          (ops.foldl (opStep c) acc).2.1) := by
  induction ops with
  | nil => exact fun acc h1 h2 => ⟨h1, h2⟩
  | cons op ops ih =>
      intro acc h1 h2
      rw [List.foldl_cons]
      have h := opStep_invariant c acc op h1 h2
      exact ih _ h.1 h.2

/-! ### Claims -/

open Slab TypedSlab

/-- C9: `new()` and `default()` produce the same initial store: zero
capacity, empty free list, and `len() = 0`, so `is_empty()` holds and
`iter()` is empty on it. -/
theorem new_default_empty {K V : Type} (c : KeyConv K) :
    (Slab.new : Slab V) = Slab.defaultSlab ∧
      (Slab.new : Slab V).slots = [] ∧
      Slab.freeChain (Slab.new : Slab V) = some [] ∧
      TypedSlab.len (Slab.new : Slab V) = 0 ∧
      TypedSlab.isEmpty (Slab.new : Slab V) = true ∧
      TypedSlab.iter c (Slab.new : Slab V) = [] ∧
      TypedSlab.iterRev c (Slab.new : Slab V) = [] :=
  ⟨rfl, rfl, rfl, rfl, rfl, rfl, rfl⟩

/-- C10: whenever `remove` returns `None`, the store is completely
unchanged: the second component of the call is the original store. -/
theorem remove_none_frame {K V : Type} (c : KeyConv K) (s : Slab V) (k : K)
    (h : (TypedSlab.remove c s k).1 = none) :
    (TypedSlab.remove c s k).2 = s := by
  unfold TypedSlab.remove at *
  by_cases hc : s.contains (c.toIdx k) = true
  · simp only [hc, if_true] at h
    have := Slab.contains_eq_true_iff.mp hc
    obtain ⟨v, hv⟩ := this
    rw [Slab.get_eq_some_iff.mpr hv] at h
    exact Option.noConfusion h
  · simp only [Bool.not_eq_true] at hc
    simp [hc]

/-- Witness for C10 at a concrete store and key. -/
theorem remove_none_frame_witness :
    (TypedSlab.remove ⟨id, id⟩ (Slab.new : Slab Nat) 3).1 = none ∧
      (TypedSlab.remove ⟨id, id⟩ (Slab.new : Slab Nat) 3).2 = Slab.new :=
  ⟨rfl, remove_none_frame ⟨id, id⟩ Slab.new 3 rfl⟩

/-- C1: for every value `v` and every (well-formed) store, inserting `v` and
then calling `get` with the key that `insert` returned yields `v`, provided
the caller's key conversion round-trips. -/
theorem insert_then_get {K V : Type} (c : KeyConv K) (hc : c.RoundTrip)
    {s : Slab V} (hWF : s.WF) (v : V) :
    TypedSlab.get c (TypedSlab.insert c s v).2 (TypedSlab.insert c s v).1 =
      some v := by
  unfold TypedSlab.get TypedSlab.insert
  simp only
  rw [hc]
  exact Slab.get_insert hWF v

/-- Witness for C1 on the empty store with the identity key type. -/
theorem insert_then_get_witness :
    TypedSlab.get ⟨id, id⟩ (TypedSlab.insert ⟨id, id⟩ (Slab.new : Slab Nat) 7).2
        (TypedSlab.insert ⟨id, id⟩ (Slab.new : Slab Nat) 7).1 = some 7 :=
  insert_then_get ⟨id, id⟩ (fun _ => rfl) Slab.WF_new 7

/-- C8: `insert_entry(v)` chooses the same slot as `insert(v)` would on the
same state — same key, same resulting store — and the value it hands back is
the just-inserted `v`, stored at the returned key. -/
theorem insert_entry_refines {K V : Type} (c : KeyConv K) (s : Slab V) (v : V) :
    TypedSlab.insertEntry c s v =
        ((TypedSlab.insert c s v).1, v, (TypedSlab.insert c s v).2) ∧
      (s.WF → (s.insertEntry v).2.2.get (s.insertEntry v).1 = some v) := by
  constructor
  · unfold TypedSlab.insertEntry TypedSlab.insert
    rw [Slab.insertEntry_eq_insert]
  · intro hWF
    rw [Slab.insertEntry_eq_insert]
    exact Slab.get_insert hWF v

/-- Witness for C8 on the empty store with the identity key type. -/
theorem insert_entry_refines_witness :
    (TypedSlab.insertEntry ⟨id, id⟩ (Slab.new : Slab Nat) 5 =
        ((TypedSlab.insert ⟨id, id⟩ (Slab.new : Slab Nat) 5).1, 5,
          (TypedSlab.insert ⟨id, id⟩ (Slab.new : Slab Nat) 5).2)) ∧
      (Slab.get ((Slab.new : Slab Nat).insertEntry 5).2.2
          ((Slab.new : Slab Nat).insertEntry 5).1 = some 5) := by
  have h := insert_entry_refines ⟨id, id⟩ (Slab.new : Slab Nat) 5
  exact ⟨h.1, h.2 Slab.WF_new⟩

/-- C4: a key whose raw index is out of bounds or addresses a vacant slot
gets the absence signal from `get`, `get_mut` and `remove` (the latter with
the store unchanged); and immediately after a successful `remove`, `get` on
the removed key is absent — never a stale value. -/
theorem invalid_key_absence {K V : Type} (c : KeyConv K) (s : Slab V)
    (k k' : K) :
    ((s.slots.length ≤ c.toIdx k ∨ Slab.isVacantAt s.slots (c.toIdx k) = true) →
        TypedSlab.get c s k = none ∧ TypedSlab.getMut c s k = none ∧
          TypedSlab.remove c s k = (none, s)) ∧
      ((TypedSlab.remove c s k').1.isSome = true →
        TypedSlab.get c (TypedSlab.remove c s k').2 k' = none) := by
  constructor
  · intro h
    have hget : s.get (c.toIdx k) = none := by
      cases h with
      | inl h => exact Slab.get_of_oob h
      | inr h => exact Slab.get_of_vacant h
    refine ⟨hget, hget, ?_⟩
    unfold TypedSlab.remove
    have hc : s.contains (c.toIdx k) = false := by
      unfold Slab.contains
      rw [hget]
      rfl
    simp [hc]
  · intro hrem
    by_cases hc : s.contains (c.toIdx k') = true
    · obtain ⟨v, hv⟩ := Slab.contains_eq_true_iff.mp hc
      have hlt := Slab.lt_length_of_getElem?_eq_some hv
      unfold TypedSlab.remove
      simp only [hc, if_true]
      unfold TypedSlab.get Slab.get Slab.removeAt
      simp only
      rw [List.getElem?_set_eq_of_lt _ hlt]
    · exfalso
      unfold TypedSlab.remove at hrem
      simp only [Bool.not_eq_true] at hc
      simp [hc] at hrem

/-- Witness for C4: a one-slot store, an out-of-bounds key and the occupied
key. -/
theorem invalid_key_absence_witness :
    ((TypedSlab.get ⟨id, id⟩ (⟨[Slot.occupied 7], 1, none⟩ : Slab Nat) 5 = none ∧
        TypedSlab.getMut ⟨id, id⟩ (⟨[Slot.occupied 7], 1, none⟩ : Slab Nat) 5 = none ∧
        TypedSlab.remove ⟨id, id⟩ (⟨[Slot.occupied 7], 1, none⟩ : Slab Nat) 5 =
          (none, ⟨[Slot.occupied 7], 1, none⟩)) ∧
      TypedSlab.get ⟨id, id⟩
          (TypedSlab.remove ⟨id, id⟩ (⟨[Slot.occupied 7], 1, none⟩ : Slab Nat) 0).2 0 =
        none) := by
  have h := invalid_key_absence (⟨id, id⟩ : KeyConv Nat)
    (⟨[Slot.occupied 7], 1, none⟩ : Slab Nat) 5 0
  exact ⟨h.1 (Or.inl (by decide)), h.2 (by decide)⟩

/-- C2: after inserting N values and removing exactly one of them by its
key, the next insert returns a key whose raw index equals the freed slot's
raw index — the freed slot is reused before any new slot is appended. -/
theorem freed_slot_reused {K V : Type} (c : KeyConv K) (hc : c.RoundTrip)
    (vs : List V) {j : Nat} (hj : j < vs.length) (w : V) :
    (TypedSlab.remove c (insertMany vs Slab.new) (c.fromIdx j)).1.isSome = true ∧
      c.toIdx (TypedSlab.insert c
        (TypedSlab.remove c (insertMany vs Slab.new) (c.fromIdx j)).2 w).1 = j := by
  have hstate : insertMany vs Slab.new =
      (⟨vs.map Slot.occupied, vs.length, none⟩ : Slab V) := by
    rw [insertMany_no_free vs Slab.new rfl]
    simp [Slab.new]
  obtain ⟨v0, hv0⟩ : ∃ v0, vs[j]? = some v0 :=
    ⟨vs.get ⟨j, hj⟩, List.getElem?_eq_getElem hj⟩
  have hsj : ((insertMany vs Slab.new).slots)[j]? = some (.occupied v0) := by
    rw [hstate]
    show (vs.map Slot.occupied)[j]? = some (.occupied v0)
    rw [List.getElem?_map, hv0]
    rfl
  have hcont : (insertMany vs Slab.new).contains (c.toIdx (c.fromIdx j)) = true := by
    rw [hc]
    exact Slab.contains_eq_true_iff.mpr ⟨v0, hsj⟩
  rw [remove_eq_of_contains hcont]
  constructor
  · rw [hc, Slab.get_eq_some_iff.mpr hsj]
    rfl
  · unfold TypedSlab.insert
    have hc' : ∀ i : Nat, c.toIdx (c.fromIdx i) = i := hc
    simp only [hc']
    have hjlt : j < (insertMany vs Slab.new).slots.length := by
      rw [hstate]
      show j < (vs.map Slot.occupied).length
      rw [List.length_map]
      exact hj
    have hset : (((insertMany vs Slab.new).removeAt j).slots)[j]? =
        some (.vacant (insertMany vs Slab.new).free_head) :=
      List.getElem?_set_eq_of_lt _ hjlt
    rw [Slab.insert_of_free_head rfl hset]

/-- Witness for C2: insert three values, remove the one at raw index 1,
insert again — the new key's raw index is 1. -/
theorem freed_slot_reused_witness :
    (TypedSlab.remove ⟨id, id⟩ (insertMany [10, 20, 30] (Slab.new : Slab Nat)) 1).1.isSome
        = true ∧
      (TypedSlab.insert ⟨id, id⟩
        (TypedSlab.remove ⟨id, id⟩ (insertMany [10, 20, 30] (Slab.new : Slab Nat)) 1).2
        40).1 = 1 :=
  freed_slot_reused ⟨id, id⟩ (fun _ => rfl) [10, 20, 30] (by decide) 40

/-- C3: running any sequence of `insert`, `insert_entry` and `remove`
operations from a new store, `len()` equals the number of inserts performed
minus the number of removes that returned a value, and `is_empty()` holds
exactly when `len() = 0`. -/
theorem len_counts_ops {K V : Type} (c : KeyConv K) (ops : List (Op K V)) :
    TypedSlab.len (runOps c ops).1 = (runOps c ops).2.1 - (runOps c ops).2.2 ∧
      TypedSlab.len (runOps c ops).1 + (runOps c ops).2.2 = (runOps c ops).2.1 ∧
      (TypedSlab.isEmpty (runOps c ops).1 = true ↔
        TypedSlab.len (runOps c ops).1 = 0) := by
  have h := foldl_opStep_invariant c ops (Slab.new, 0, 0) Slab.WF_new rfl
  unfold runOps
  refine ⟨by have := h.2; unfold TypedSlab.len; omega, h.2, ?_⟩
  unfold TypedSlab.isEmpty TypedSlab.len
  simp

/-- C5: a drain consumed for only `k` of the occupied values and then
abandoned removes exactly those `k` produced values (the first `k` of the
occupied sequence), leaves every not-yet-yielded slot occupied with its value
unchanged, and preserves the free-list invariant. -/
theorem partial_drain_consistent {V : Type} (s : Slab V) (hWF : s.WF)
    (k : Nat) (hk : k ≤ s.entries.length) :
    (Slab.drainTake k s).1 = (s.entries.map Prod.snd).take k ∧
      (Slab.drainTake k s).2.entries = s.entries.drop k ∧
      (Slab.drainTake k s).2.WF :=
  drainTake_spec k s hWF hk

/-- Witness for C5: drain one of three occupied values, abandon the rest. -/
theorem partial_drain_consistent_witness :
    (Slab.drainTake 1
        (⟨[.occupied 10, .occupied 20, .occupied 30], 3, none⟩ : Slab Nat)).1 =
      ((Slab.entries ⟨[.occupied 10, .occupied 20, .occupied 30], 3, none⟩).map
        Prod.snd).take 1 ∧
      (Slab.drainTake 1
          (⟨[.occupied 10, .occupied 20, .occupied 30], 3, none⟩ : Slab Nat)).2.entries =
        (Slab.entries ⟨[.occupied 10, .occupied 20, .occupied 30], 3, none⟩).drop 1 ∧
      (Slab.drainTake 1
          (⟨[.occupied 10, .occupied 20, .occupied 30], 3, none⟩ : Slab Nat)).2.WF :=
  partial_drain_consistent ⟨[.occupied 10, .occupied 20, .occupied 30], 3, none⟩
    ⟨[], rfl, by decide, by decide⟩ 1 (by decide)

/-- C6: `iter()` yields exactly one pair per occupied slot, in strictly
ascending raw-index order; reversing the iteration reverses the sequence;
and on an empty store both directions are empty. -/
theorem iter_exact_ascending {K V : Type} (c : KeyConv K) (s : Slab V) :
    (∀ i v, ((i, v) ∈ s.entries ↔ s.slots[i]? = some (.occupied v))) ∧
      List.Pairwise (fun a b => a.1 < b.1) s.entries ∧
      TypedSlab.iter c s = s.entries.map (fun p => (c.fromIdx p.1, p.2)) ∧
      TypedSlab.iterRev c s = (TypedSlab.iter c s).reverse ∧
      TypedSlab.iter c (Slab.new : Slab V) = [] ∧
      TypedSlab.iterRev c (Slab.new : Slab V) = [] := by
  refine ⟨?_, entriesGo_pairwise, rfl, rfl, rfl, rfl⟩
  intro i v
  show (i, v) ∈ Slab.entriesGo 0 s.slots ↔ _
  rw [mem_entriesGo]
  constructor
  · rintro ⟨off, hoff, hs⟩
    have : i = off := by omega
    rw [this]
    exact hs
  · intro hs
    exact ⟨i, by omega, hs⟩

/-- C7: fully consuming `drain()` yields every occupied value in ascending
raw-index order, after which `len() = 0`, `is_empty()` holds, and a
subsequent insert behaves exactly as on a store that never held values,
returning the key of raw index 0. -/
theorem full_drain_resets {K V : Type} (c : KeyConv K) {s : Slab V}
    (hWF : s.WF) (v : V) :
    (Slab.drainAll s).1 = s.entries.map Prod.snd ∧
      TypedSlab.len (Slab.drainAll s).2 = 0 ∧
      TypedSlab.isEmpty (Slab.drainAll s).2 = true ∧
      TypedSlab.insert c (Slab.drainAll s).2 v = TypedSlab.insert c Slab.new v ∧
      (TypedSlab.insert c (Slab.drainAll s).2 v).1 = c.fromIdx 0 := by
  refine ⟨?_, rfl, rfl, rfl, rfl⟩
  exact drainRun_spec s.slots.length s hWF entriesGo_length_le

/-- Witness for C7: fully drain a three-element store holding a hole. -/
theorem full_drain_resets_witness :
    (Slab.drainAll (⟨[.occupied 10, .vacant none, .occupied 30], 2, some 1⟩ : Slab Nat)).1 =
      (Slab.entries ⟨[.occupied 10, .vacant none, .occupied 30], 2, some 1⟩).map
        Prod.snd ∧
      TypedSlab.len
          (Slab.drainAll
            (⟨[.occupied 10, .vacant none, .occupied 30], 2, some 1⟩ : Slab Nat)).2 = 0 ∧
      TypedSlab.isEmpty
          (Slab.drainAll
            (⟨[.occupied 10, .vacant none, .occupied 30], 2, some 1⟩ : Slab Nat)).2 = true ∧
      TypedSlab.insert ⟨id, id⟩
          (Slab.drainAll
            (⟨[.occupied 10, .vacant none, .occupied 30], 2, some 1⟩ : Slab Nat)).2 99 =
        TypedSlab.insert ⟨id, id⟩ Slab.new 99 ∧
      (TypedSlab.insert ⟨id, id⟩
          (Slab.drainAll
            (⟨[.occupied 10, .vacant none, .occupied 30], 2, some 1⟩ : Slab Nat)).2 99).1 =
        (⟨id, id⟩ : KeyConv Nat).fromIdx 0 :=
  full_drain_resets ⟨id, id⟩ ⟨[1], by decide, by decide, by decide⟩ 99

end TypedSlabModel
